import Mathlib

namespace Alawyer

/- Basic text machinery: texts are lists of characters. -/

def str (s : String) : List Char := s.data

def prefixOf : List Char → List Char → Bool
  | [], _ => true
  | _ :: _, [] => false
  | c :: cs, d :: ds => c == d && prefixOf cs ds

def containsSeg (needle : List Char) : List Char → Bool
  | [] => needle.isEmpty
  | c :: rest => prefixOf needle (c :: rest) || containsSeg needle rest

/- Safety engine (src/alawyer-core/src/safety/mod.rs).

Each rule regex is an alternation of either a plain literal or a
two-literal form a.*b; `.` in the Rust regex does not match a newline,
the star is greedy, alternation is leftmost-first, and find_iter scans
left to right taking non-overlapping matches. -/

inductive Severity where
  | critical
  | warning
deriving DecidableEq

inductive Alt where
  | lit (l : List Char)
  | pair (a b : List Char)

def nlBound (s : List Char) : Nat := (s.takeWhile (fun c => c != '\n')).length

def lastMatch (b : List Char) (s : List Char) : Nat → Option Nat
  | 0 => if prefixOf b s then some b.length else none
  | k + 1 => if prefixOf b (s.drop (k + 1)) then some (k + 1 + b.length) else lastMatch b s k

def matchOne : Alt → List Char → Option Nat
  | .lit l, s => if prefixOf l s then some l.length else none
  | .pair a b, s =>
      if prefixOf a s then
        match lastMatch b (s.drop a.length) (nlBound (s.drop a.length)) with
        | some n => some (a.length + n)
        | none => none
      else none

def matchAlt : List Alt → List Char → Option Nat
  | [], _ => none
  | alt :: rest, s =>
      match matchOne alt s with
      | some n => some n
      | none => matchAlt rest s

def scanAux (pat : List Alt) (repl : List Char) : List Char → Nat → List (List Char) × List Char
  | [], _ => ([], [])
  | c :: rest, 0 =>
      match matchAlt pat (c :: rest) with
      | some (n + 1) =>
          let r := scanAux pat repl rest n
          ((c :: rest.take n) :: r.1, repl ++ r.2)
      | _ =>
          let r := scanAux pat repl rest 0
          (r.1, c :: r.2)
  | _ :: rest, skip + 1 => scanAux pat repl rest skip

def scanStep (pat : List Alt) (repl : List Char) (s : List Char) : List (List Char) × List Char :=
  scanAux pat repl s 0

structure SafetyIssue where
  rule_name : String
  matched_text : List Char
  replacement : List Char
  severity : Severity
deriving DecidableEq

structure SafetyRule where
  name : String
  pattern : List Alt
  replacement : List Char
  severity : Severity

structure SafetyCheckResult where
  modified_content : List Char
  issues : List SafetyIssue
  has_critical : Bool

def safetyRules : List SafetyRule :=
  [ { name := "guarantee_win",
      pattern := [Alt.pair (str "保证") (str "胜诉"), Alt.pair (str "肯定") (str "赢")],
      replacement := str "无法保证案件结果",
      severity := Severity.critical },
    { name := "fake_lawyer_identity",
      pattern := [Alt.lit (str "我是律师"), Alt.lit (str "本律师"), Alt.lit (str "根据律师意见")],
      replacement := str "本回答由AI生成",
      severity := Severity.critical },
    { name := "absolute_certainty",
      pattern := [Alt.lit (str "绝对没问题"), Alt.lit (str "肯定没事"), Alt.lit (str "一定行")],
      replacement := str "存在不确定性",
      severity := Severity.warning },
    { name := "must_win",
      pattern := [Alt.lit (str "包赢"), Alt.lit (str "必赢"), Alt.lit (str "必胜"),
                  Alt.pair (str "一定") (str "赢")],
      replacement := str "结果不确定",
      severity := Severity.critical },
    { name := "crime_judgement",
      pattern := [Alt.pair (str "你构成") (str "罪"), Alt.pair (str "你") (str "坐牢"),
                  Alt.pair (str "你") (str "犯罪")],
      replacement := str "建议咨询专业律师",
      severity := Severity.critical },
    { name := "legal_effect",
      pattern := [Alt.lit (str "具有法律效力"), Alt.lit (str "法律上有效")],
      replacement := str "需执业律师确认效力",
      severity := Severity.warning } ]

def applyRule (acc : List Char × List SafetyIssue) (r : SafetyRule) : List Char × List SafetyIssue :=
  let res := scanStep r.pattern r.replacement acc.1
  let newIssues := res.1.map (fun m =>
    { rule_name := r.name, matched_text := m, replacement := r.replacement,
      severity := r.severity : SafetyIssue })
  (if res.1.isEmpty then acc.1 else res.2, acc.2 ++ newIssues)

def check (content : List Char) : SafetyCheckResult :=
  let folded := safetyRules.foldl applyRule (content, [])
  { modified_content := folded.1,
    issues := folded.2,
    has_critical := folded.2.any (fun i => i.severity == Severity.critical) }

/- Well-formedness of the concrete patterns: every literal chunk is
nonempty and newline-free (true of all six rules, checked by decide). -/

def altOk : Alt → Bool
  | .lit l => !l.isEmpty && l.all (fun c => c != '\n')
  | .pair a b => !a.isEmpty && a.all (fun c => c != '\n') && (!b.isEmpty && b.all (fun c => c != '\n'))

def patOk (pat : List Alt) : Bool := pat.all altOk

/- Error kinds (src/alawyer-core/src/error.rs). -/

inductive CoreErr where
  | config (m : String)
  | storage (m : String)
  | model (m : String)
  | tool (m : String)
  | safety (m : String)
  | invalidState (m : String)
  | notFound (m : String)
  | cancelled
  | timeout (m : String)
  | unknown (m : String)
deriving DecidableEq

/- Decimal rendering of a natural number (Rust usize to_string) and the
Rust usize FromStr parser used by intake_state: optional leading plus
sign, ASCII digits only, value bounded by 64-bit usize. -/

def usizeMax : Nat := 18446744073709551615

def digitVal (c : Char) : Nat := c.toNat - 48

def natDigits (n : Nat) : List Char :=
  if h : n < 10 then [Char.ofNat (48 + n)]
  else natDigits (n / 10) ++ [Char.ofNat (48 + n % 10)]
termination_by n
decreasing_by exact Nat.div_lt_self (by omega) (by omega)

def stripPlus (cs : List Char) : List Char :=
  match cs with
  | [] => []
  | c :: rest => if c = '+' then rest else c :: rest

def parseUsize (s : String) : Option Nat :=
  let ds := stripPlus s.data
  if ds.isEmpty then none
  else if ds.all Char.isDigit then
    let v := ds.foldl (fun acc c => acc * 10 + digitVal c) 0
    if v ≤ usizeMax then some v else none
  else none

/- Report assembly (src/alawyer-core/src/agent/mod.rs: DISCLAIMER and
build_report) and the review-phase composition done by
AgentWorker::run_with_iteration in src/alawyer-core/src/lib.rs:
citations are spliced into the legal-analysis argument under a 【引用】
heading, the draft is passed through the safety check, and a 【安全审查】
header is prepended when the check found critical issues. -/

def disclaimer : List Char :=
  str "【免责声明】\n1. 本报告由AI生成，仅供参考，不构成法律意见或律师建议\n2. 案件具体情况可能影响法律适用，建议咨询执业律师\n3. 法规可能存在时效性，请以最新颁布版本为准\n4. 本报告不保证准确性、完整性或适用性"

def tplA : List Char :=
  str "【先说结论】\n从您目前提供的信息看，这类争议通常可以先走劳动仲裁路径；建议尽快把证据按时间线整理好，再按步骤推进。\n\n【事实摘要】\n我先把您提供的信息整理如下：\n"

def tplB : List Char := str "\n\n【法律分析】\n"

def tplC : List Char := str "\n\n【办事路径】\n建议按“先准备、再提交、再跟进”的顺序推进：\n"

def tplD : List Char := str "\n\n【风险提示】\n"

def tplE : List Char := str "\n\n"

def buildReport (facts_summary legal_analysis process_path risk_notice : List Char) : List Char :=
  tplA ++ facts_summary ++ tplB ++ legal_analysis ++ tplC ++ process_path ++ tplD ++ risk_notice ++
    tplE ++ disclaimer

def processPath : List Char :=
  str "1. 先把证据按时间线整理：合同/考勤/工资流水/沟通记录尽量对应到具体日期。\n2. 准备并提交仲裁申请：写清诉求、金额和事实经过，向有管辖权的仲裁委递交。\n3. 参加调解或开庭：围绕劳动关系、欠薪事实、金额计算这三点陈述，并按要求补充材料。"

def citeHeader : List Char := str "\n\n【引用】\n"

def criticalCount (r : SafetyCheckResult) : Nat :=
  r.issues.countP (fun i => i.severity == Severity.critical)

def safetyHeader (n : Nat) : List Char :=
  str "【安全审查】\n检测到 " ++ natDigits n ++ str " 处高风险表述，已自动拦截并改写。\n\n"

def finalReviewText (facts legal cites risk : List Char) : List Char :=
  let draft := buildReport facts (legal ++ citeHeader ++ cites) processPath risk
  let res := check draft
  if res.has_critical then safetyHeader (criticalCount res) ++ res.modified_content
  else res.modified_content

/- Intake settings state and the worker turn
(src/alawyer-core/src/agent/mod.rs: intake_state, start_intake,
save_answer, advance_intake_index, mark_intake_done;
src/alawyer-core/src/lib.rs: AgentWorker::run_with_iteration /
handle_intake). Only the setting reads and writes are modelled; the
draft and review phases write no settings. qcount is the length of the
scenario question catalog (6 for labor, 0 otherwise). -/

structure IntakeStore where
  idx : Option String
  done : Option String
  answers : List (Nat × String)
deriving DecidableEq

structure IntakeStateM where
  currentIndex : Nat
  done : Bool
deriving DecidableEq

def intakeState (s : IntakeStore) : IntakeStateM :=
  { currentIndex := ((s.idx.bind parseUsize).getD 0),
    done := s.done == some "1" }

def parsedIdx (s : IntakeStore) : Nat := (s.idx.bind parseUsize).getD 0

inductive TurnKind where
  | askedFirst (index : Nat)
  | askedNext (index : Nat)
  | reportDone
deriving DecidableEq

def runWithIteration (maxIter qcount : Nat) (content : String) (s : IntakeStore) (iter : Nat) :
    IntakeStore × Except CoreErr TurnKind :=
  if h : iter > maxIter then
    (s, .error (.unknown ("max_iterations exceeded: " ++ String.mk (natDigits maxIter))))
  else if (intakeState s).done then
    (s, .ok .reportDone)
  else if (intakeState s).currentIndex = 0 then
    ({ s with idx := some "1" }, .ok (.askedFirst 0))
  else if (intakeState s).currentIndex < qcount then
    ({ s with
        answers := ((intakeState s).currentIndex - 1, content) :: s.answers,
        idx := some (String.mk (natDigits ((intakeState s).currentIndex + 1))) },
     .ok (.askedNext (intakeState s).currentIndex))
  else
    runWithIteration maxIter qcount content
      { s with
        answers := ((intakeState s).currentIndex - 1, content) :: s.answers,
        done := some "1" } (iter + 1)
termination_by maxIter + 1 - iter
decreasing_by omega

def runTurns (maxIter qcount : Nat) (contents : List String) (s : IntakeStore) : IntakeStore :=
  contents.foldl (fun st c => (runWithIteration maxIter qcount c st 1).1) s

/- Interleaving model of one completed non-intake worker turn with all
tool permissions set to allow and no safety issues
(src/alawyer-core/src/lib.rs: run_with_iteration and the spawn closure
in send_message). Steps are indexed in execution order; guard steps are
the cancellation checkpoints (guard_not_cancelled); persist is the final
create_message. cancelAt is the first step index at which the cancel
flag set by cancel_agent_task is visible; a guard aborts the worker with
Cancelled iff the flag is visible when it runs, and the spawn closure
then emits a cancelled event. -/

inductive WStep where
  | guard
  | emit (kind : String)
  | persist

def mainWorkerSteps : List WStep :=
  [ .guard,
    .emit "agent_phase",
    .emit "agent_phase",
    .guard, .emit "tool_call_result",
    .guard, .emit "tool_call_result",
    .guard, .emit "tool_call_result",
    .guard, .emit "tool_call_result",
    .emit "agent_phase",
    .guard, .emit "tool_call_result",
    .guard,
    .persist,
    .emit "completed" ]

def runSteps (cancelAt : Nat) : List WStep → Nat → List (Nat × String) × Bool
  | [], _ => ([], false)
  | .guard :: rest, i => if cancelAt ≤ i then ([], true) else runSteps cancelAt rest (i + 1)
  | .emit k :: rest, i =>
      let r := runSteps cancelAt rest (i + 1)
      ((i, k) :: r.1, r.2)
  | .persist :: rest, i => runSteps cancelAt rest (i + 1)

def workerTrace (cancelAt : Nat) : List (Nat × String) :=
  let r := runSteps cancelAt mainWorkerSteps 0
  if r.2 then r.1 ++ [(17, "cancelled")] else r.1

/- Storage rows and create_message
(src/alawyer-core/src/storage/sqlite.rs). The session-existence check,
the message insert and the updated_at bump all happen under one lock;
when the session is missing the function returns NotFound before any
write. -/

structure SessionR where
  id : String
  title : Option String
  scenario : String
  created_at : Int
  updated_at : Int
  status : String
deriving DecidableEq

structure MessageR where
  id : String
  session_id : String
  role : String
  content : String
  phase : Option String
  tool_calls : Option String
  created_at : Int
deriving DecidableEq

structure Db where
  sessions : List SessionR
  messages : List MessageR
deriving DecidableEq

def createMessage (db : Db) (newId : String) (now : Int) (session_id role content : String)
    (phase : Option String) (tool_calls : Option String) : Db × Except CoreErr MessageR :=
  let sessionExists := db.sessions.any (fun s => s.id == session_id)
  if !sessionExists then
    (db, .error (.notFound ("session " ++ session_id)))
  else
    let m : MessageR :=
      { id := newId, session_id := session_id, role := role, content := content,
        phase := phase, tool_calls := tool_calls, created_at := now }
    ({ sessions := db.sessions.map (fun s =>
          if s.id == session_id then { s with updated_at := now } else s),
       messages := db.messages ++ [m] },
     .ok m)

/- Core::generate_report (src/alawyer-core/src/lib.rs): messages are the
session messages in created_at ascending order as returned by
get_messages; the code searches the reversed list. -/

def isReviewMsg (m : MessageR) : Bool :=
  m.role == "assistant" && m.phase == some "review"

def isFallbackMsg (m : MessageR) : Bool :=
  m.role == "assistant" && containsSeg (str "【事实摘要】") m.content.data &&
    containsSeg (str "【免责声明】") m.content.data

def generateReport (session_id : String) (msgs : List MessageR) : Except CoreErr String :=
  match msgs.reverse.find? isReviewMsg with
  | some m => .ok m.content
  | none =>
    match msgs.reverse.find? isFallbackMsg with
    | some m => .ok m.content
    | none => .error (.notFound ("report for session " ++ session_id))

def lastOpt : List MessageR → Option MessageR
  | [] => none
  | [a] => some a
  | _ :: b :: t => lastOpt (b :: t)

/-- Spec-side reading of generate_report: the latest (last in
created_at order) assistant message with phase review; else the most
recent assistant message containing both 【事实摘要】 and 【免责声明】; else
NotFound. -/
def generateReportSpec (session_id : String) (msgs : List MessageR) : Except CoreErr String :=
  match lastOpt (msgs.filter isReviewMsg) with
  | some m => .ok m.content
  | none =>
    match lastOpt (msgs.filter isFallbackMsg) with
    | some m => .ok m.content
    | none => .error (.notFound ("report for session " ++ session_id))

/- JSON values and the suggest_escalation tool
(src/alawyer-core/src/tools/mod.rs: SuggestEscalationTool::run). -/

inductive Json where
  | null
  | bool (b : Bool)
  | num (n : Int)
  | jstr (s : String)
  | arr (items : List Json)
  | obj (fields : List (String × Json))

def jsonGet (j : Json) (key : String) : Option Json :=
  match j with
  | .obj fields => (fields.find? (fun kv => kv.1 == key)).map (fun kv => kv.2)
  | _ => none

def jsonAsStr : Json → Option String
  | .jstr s => some s
  | _ => none

def highRiskKeywords : List String := ["刑事", "移民", "证券", "重大财产", "坐牢", "犯罪"]

def escalationHigh : String := "这个场景风险较高，建议尽快和执业律师一对一确认关键细节。"

def escalationLow : String := "以上建议仅供参考；如果争议金额较大或事实复杂，建议再请执业律师把关。"

def escalationContent (args : Json) : String :=
  ((jsonGet args "content").bind jsonAsStr).getD ""

def suggestEscalationRun (args : Json) : Except CoreErr Json :=
  let content := escalationContent args
  let need := highRiskKeywords.any (fun kw => containsSeg (str kw) (str content))
  let message := if need then escalationHigh else escalationLow
  .ok (.obj [("need_escalation", .bool need), ("message", .jstr message)])

/- Core::new (src/alawyer-core/src/lib.rs). The max_iterations guard
runs before any filesystem or database effect; the effect list records
the side effects performed on the success path (directory creation and
database open, filesystem operations assumed to succeed). kbExists says
whether the kb_path directory already exists; dbParent is the parent
directory of db_path if it has one. -/

structure CoreConfigM where
  kb_path : String
  db_path : String
  max_iterations : Nat
deriving DecidableEq

inductive InitEffect where
  | createKbDir (p : String)
  | createDbDir (p : String)
  | openDb (p : String)
deriving DecidableEq

def coreNew (cfg : CoreConfigM) (kbExists : Bool) (dbParent : Option String) :
    List InitEffect × Except CoreErr Unit :=
  if cfg.max_iterations = 0 then
    ([], .error (.config "max_iterations must be > 0"))
  else
    let kbFx := if cfg.kb_path == "" then [] else if kbExists then []
      else [InitEffect.createKbDir cfg.kb_path]
    let dbFx := match dbParent with
      | some p => [InitEffect.createDbDir p]
      | none => []
    (kbFx ++ dbFx ++ [InitEffect.openDb cfg.db_path], .ok ())

/- Helper lemmas: prefixes, substring containment, list surgery. -/

theorem prefixOf_le {l s : List Char} (h : prefixOf l s = true) : l.length ≤ s.length := by
  induction l generalizing s with
  | nil => simp
  | cons c cs ih =>
    cases s with
    | nil => simp [prefixOf] at h
    | cons d ds =>
      simp only [prefixOf, Bool.and_eq_true] at h
      simpa using ih h.2

theorem prefixOf_iff {l s : List Char} : prefixOf l s = true ↔ ∃ v, s = l ++ v := by
  induction l generalizing s with
  | nil => simp [prefixOf]
  | cons c cs ih =>
    cases s with
    | nil =>
      simp [prefixOf]
    | cons d ds =>
      simp only [prefixOf, Bool.and_eq_true, beq_iff_eq, List.cons_append, List.cons.injEq]
      constructor
      · rintro ⟨rfl, h⟩
        obtain ⟨v, rfl⟩ := ih.mp h
        exact ⟨v, rfl, rfl⟩
      · rintro ⟨v, rfl, rfl⟩
        exact ⟨rfl, ih.mpr ⟨v, rfl⟩⟩

theorem prefixOf_self_append (l v : List Char) : prefixOf l (l ++ v) = true :=
  prefixOf_iff.mpr ⟨v, rfl⟩

theorem prefixOf_split {l : List Char} (hl : ∀ c ∈ l, c ≠ '\n') (a b : List Char) :
    prefixOf l (a ++ '\n' :: b) = prefixOf l a := by
  induction l generalizing a with
  | nil => simp [prefixOf]
  | cons c cs ih =>
    cases a with
    | nil =>
      have hc : c ≠ '\n' := hl c (by simp)
      simp [prefixOf, hc]
    | cons d ds =>
      have hcs : ∀ x ∈ cs, x ≠ '\n' := fun x hx => hl x (by simp [hx])
      simp [prefixOf, ih hcs]

theorem containsSeg_iff {n h : List Char} :
    containsSeg n h = true ↔ ∃ u v, h = u ++ n ++ v := by
  induction h with
  | nil =>
    simp only [containsSeg, List.isEmpty_iff]
    constructor
    · rintro rfl
      exact ⟨[], [], rfl⟩
    · rintro ⟨u, v, huv⟩
      have hlen := congrArg List.length huv
      simp only [List.length_nil, List.length_append] at hlen
      have : n.length = 0 := by omega
      exact List.length_eq_zero.mp this
  | cons c rest ih =>
    simp only [containsSeg, Bool.or_eq_true, prefixOf_iff, ih]
    constructor
    · rintro (⟨v, hv⟩ | ⟨u, v, huv⟩)
      · exact ⟨[], v, by simp [hv]⟩
      · exact ⟨c :: u, v, by simp [huv]⟩
    · rintro ⟨u, v, huv⟩
      cases u with
      | nil =>
        left
        exact ⟨v, by simpa using huv⟩
      | cons x u2 =>
        right
        simp only [List.cons_append, List.cons.injEq] at huv
        exact ⟨u2, v, huv.2⟩

theorem containsSeg_mid (n x y : List Char) : containsSeg n (x ++ (n ++ y)) = true :=
  containsSeg_iff.mpr ⟨x, y, by simp⟩

theorem containsSeg_prepend {n h : List Char} (g : List Char) (hh : containsSeg n h = true) :
    containsSeg n (g ++ h) = true := by
  obtain ⟨u, v, rfl⟩ := containsSeg_iff.mp hh
  exact containsSeg_iff.mpr ⟨g ++ u, v, by simp⟩

theorem dropSplit {a : List Char} (x : List Char) {k : Nat} (hk : k ≤ a.length) :
    (a ++ x).drop k = a.drop k ++ x := by
  induction a generalizing k with
  | nil =>
    have : k = 0 := by simpa using hk
    subst this
    simp
  | cons c a2 ih =>
    cases k with
    | zero => simp
    | succ k2 =>
      simp only [List.cons_append, List.drop_succ_cons]
      exact ih (by simpa using hk)

theorem takeWhile_append_newline (a b : List Char) :
    (a ++ '\n' :: b).takeWhile (fun c => c != '\n') = a.takeWhile (fun c => c != '\n') := by
  induction a with
  | nil => simp [List.takeWhile]
  | cons c a2 ih =>
    by_cases hc : c = '\n'
    · subst hc
      simp [List.takeWhile]
    · simp only [List.cons_append, List.takeWhile_cons]
      have : (c != '\n') = true := by simpa using hc
      simp [this, ih]

theorem nlBound_append_newline (a b : List Char) : nlBound (a ++ '\n' :: b) = nlBound a := by
  simp [nlBound, takeWhile_append_newline]

theorem nlBound_le (s : List Char) : nlBound s ≤ s.length := by
  induction s with
  | nil => simp [nlBound]
  | cons c rest ih =>
    by_cases hc : (c != '\n') = true
    · simpa [nlBound, List.takeWhile_cons, hc] using Nat.succ_le_succ (by simpa [nlBound] using ih)
    · simp only [Bool.not_eq_true] at hc
      simp [nlBound, List.takeWhile_cons, hc]

/- Decimal digits: rendering a Nat and parsing it back. -/

theorem digitVal_ofNat {d : Nat} (hd : d < 10) : digitVal (Char.ofNat (48 + d)) = d := by
  interval_cases d <;> decide

theorem isDigit_ofNat {d : Nat} (hd : d < 10) : (Char.ofNat (48 + d)).isDigit = true := by
  interval_cases d <;> decide

theorem isDigit_ne_plus {c : Char} (hc : c.isDigit = true) : c ≠ '+' := by
  intro h
  subst h
  simp [Char.isDigit] at hc

theorem natDigits_ne_nil (n : Nat) : natDigits n ≠ [] := by
  rw [natDigits]
  split
  · simp
  · simp

theorem natDigits_all_digit (n : Nat) : (natDigits n).all Char.isDigit = true := by
  induction n using Nat.strong_induction_on with
  | _ n ih =>
    rw [natDigits]
    split
    · next h => simp [isDigit_ofNat h]
    · next h =>
      have hlt : n / 10 < n := Nat.div_lt_self (by omega) (by omega)
      have hmod : n % 10 < 10 := Nat.mod_lt n (by omega)
      simp [List.all_append, ih (n / 10) hlt, isDigit_ofNat hmod]

theorem natDigits_foldVal (n : Nat) :
    ∀ a : Nat, (natDigits n).foldl (fun acc c => acc * 10 + digitVal c) a
      = a * 10 ^ (natDigits n).length + n := by
  induction n using Nat.strong_induction_on with
  | _ n ih =>
    intro a
    rw [natDigits]
    split
    · next h =>
      simp [List.foldl, digitVal_ofNat h]
    · next h =>
      have hlt : n / 10 < n := Nat.div_lt_self (by omega) (by omega)
      have hmod : n % 10 < 10 := Nat.mod_lt n (by omega)
      rw [List.foldl_append, ih (n / 10) hlt a]
      simp only [List.foldl, List.length_append, List.length_cons, List.length_nil]
      rw [digitVal_ofNat hmod]
      have hdm : 10 * (n / 10) + n % 10 = n := Nat.div_add_mod n 10
      have hpow : 10 ^ ((natDigits (n / 10)).length + (0 + 1))
          = 10 ^ (natDigits (n / 10)).length * 10 := by
        rw [pow_succ]
      rw [hpow]
      ring_nf
      omega

theorem parseUsize_natDigits {n : Nat} (hn : n ≤ usizeMax) :
    parseUsize (String.mk (natDigits n)) = some n := by
  have hdata : (String.mk (natDigits n)).data = natDigits n := rfl
  obtain ⟨c, rest, hcons⟩ : ∃ c rest, natDigits n = c :: rest := by
    cases h : natDigits n with
    | nil => exact absurd h (natDigits_ne_nil n)
    | cons c rest => exact ⟨c, rest, rfl⟩
  have hall := natDigits_all_digit n
  have hcdigit : c.isDigit = true := by
    rw [hcons] at hall
    simp only [List.all_cons, Bool.and_eq_true] at hall
    exact hall.1
  have hstrip : stripPlus (natDigits n) = natDigits n := by
    rw [hcons]
    simp [stripPlus, isDigit_ne_plus hcdigit]
  have hval := natDigits_foldVal n 0
  simp only [Nat.zero_mul, Nat.zero_add] at hval
  simp only [parseUsize, hdata]
  rw [hstrip, hval]
  have hne : (natDigits n).isEmpty = false := by
    rw [hcons]
    rfl
  simp [hne, hall, hn]

/- Matcher lemmas: matches never cross a newline, so scanning and
rewriting distribute over a newline split. -/

theorem lastMatch_le {b s : List Char} :
    ∀ {k m : Nat}, k ≤ s.length → lastMatch b s k = some m → m ≤ s.length := by
  intro k
  induction k with
  | zero =>
    intro m _ h
    simp only [lastMatch] at h
    split at h
    · next hpre =>
      cases h
      exact prefixOf_le hpre
    · cases h
  | succ k ih =>
    intro m hk h
    simp only [lastMatch] at h
    split at h
    · next hpre =>
      cases h
      have := prefixOf_le hpre
      simp only [List.length_drop] at this
      omega
    · exact ih (by omega) h

theorem lastMatch_split {b : List Char} (hb : ∀ c ∈ b, c ≠ '\n') {A : List Char}
    (x : List Char) :
    ∀ {k : Nat}, k ≤ A.length → lastMatch b (A ++ '\n' :: x) k = lastMatch b A k := by
  intro k
  induction k with
  | zero =>
    intro _
    simp only [lastMatch, List.drop_zero]
    rw [prefixOf_split hb]
  | succ k ih =>
    intro hk
    simp only [lastMatch]
    rw [dropSplit ('\n' :: x) hk, prefixOf_split hb, ih (by omega)]

theorem matchOne_pos {alt : Alt} (h : altOk alt = true) {s : List Char} {n : Nat}
    (hm : matchOne alt s = some n) : 1 ≤ n := by
  cases alt with
  | lit l =>
    simp only [altOk, Bool.and_eq_true] at h
    simp only [matchOne] at hm
    split at hm
    · cases hm
      have : l ≠ [] := by simpa [List.isEmpty_iff] using h.1
      cases l with
      | nil => exact absurd rfl this
      | cons c cs => simp
    · cases hm
  | pair a b =>
    simp only [altOk, Bool.and_eq_true] at h
    simp only [matchOne] at hm
    split at hm
    · split at hm
      · cases hm
        have : a ≠ [] := by simpa [List.isEmpty_iff] using h.1.1
        cases a with
        | nil => exact absurd rfl this
        | cons c cs => simp; omega
      · cases hm
    · cases hm

theorem matchOne_le {alt : Alt} (h : altOk alt = true) {s : List Char} {n : Nat}
    (hm : matchOne alt s = some n) : n ≤ s.length := by
  cases alt with
  | lit l =>
    simp only [matchOne] at hm
    split at hm
    · next hpre =>
      cases hm
      exact prefixOf_le hpre
    · cases hm
  | pair a b =>
    simp only [matchOne] at hm
    split at hm
    · next hpre =>
      cases hlast : lastMatch b (s.drop a.length) (nlBound (s.drop a.length)) with
      | none => rw [hlast] at hm; cases hm
      | some m =>
        rw [hlast] at hm
        cases hm
        have hk : nlBound (s.drop a.length) ≤ (s.drop a.length).length := nlBound_le _
        have hmle := lastMatch_le hk hlast
        have := prefixOf_le hpre
        simp only [List.length_drop] at hmle
        omega
    · cases hm

theorem altOk_newline_free_lit {l : List Char} (h : altOk (Alt.lit l) = true) :
    ∀ c ∈ l, c ≠ '\n' := by
  simp only [altOk, Bool.and_eq_true, List.all_eq_true] at h
  intro c hc
  simpa using h.2 c hc

theorem altOk_newline_free_pair {a b : List Char} (h : altOk (Alt.pair a b) = true) :
    (∀ c ∈ a, c ≠ '\n') ∧ (∀ c ∈ b, c ≠ '\n') := by
  simp only [altOk, Bool.and_eq_true, List.all_eq_true] at h
  constructor
  · intro c hc
    simpa using h.1.2 c hc
  · intro c hc
    simpa using h.2.2 c hc

theorem matchOne_split {alt : Alt} (h : altOk alt = true) (a x : List Char) :
    matchOne alt (a ++ '\n' :: x) = matchOne alt a := by
  cases alt with
  | lit l =>
    simp only [matchOne]
    rw [prefixOf_split (altOk_newline_free_lit h)]
  | pair p q =>
    obtain ⟨hp, hq⟩ := altOk_newline_free_pair h
    simp only [matchOne]
    rw [prefixOf_split hp]
    by_cases hpre : prefixOf p a = true
    · have hlen : p.length ≤ a.length := prefixOf_le hpre
      rw [if_pos hpre, if_pos hpre, dropSplit ('\n' :: x) hlen, nlBound_append_newline,
        lastMatch_split hq x (nlBound_le (a.drop p.length))]
    · rw [if_neg hpre, if_neg hpre]

theorem matchAlt_le {pat : List Alt} (h : patOk pat = true) {s : List Char} {n : Nat}
    (hm : matchAlt pat s = some n) : n ≤ s.length := by
  induction pat with
  | nil => simp [matchAlt] at hm
  | cons alt rest ih =>
    simp only [patOk, List.all_cons, Bool.and_eq_true] at h
    simp only [matchAlt] at hm
    cases h1 : matchOne alt s with
    | some m =>
      rw [h1] at hm
      cases hm
      exact matchOne_le h.1 h1
    | none =>
      rw [h1] at hm
      exact ih h.2 hm

theorem matchAlt_pos {pat : List Alt} (h : patOk pat = true) {s : List Char} {n : Nat}
    (hm : matchAlt pat s = some n) : 1 ≤ n := by
  induction pat with
  | nil => simp [matchAlt] at hm
  | cons alt rest ih =>
    simp only [patOk, List.all_cons, Bool.and_eq_true] at h
    simp only [matchAlt] at hm
    cases h1 : matchOne alt s with
    | some m =>
      rw [h1] at hm
      cases hm
      exact matchOne_pos h.1 h1
    | none =>
      rw [h1] at hm
      exact ih h.2 hm

theorem matchAlt_split {pat : List Alt} (h : patOk pat = true) (a x : List Char) :
    matchAlt pat (a ++ '\n' :: x) = matchAlt pat a := by
  induction pat with
  | nil => simp [matchAlt]
  | cons alt rest ih =>
    simp only [patOk, List.all_cons, Bool.and_eq_true] at h
    simp only [matchAlt]
    rw [matchOne_split h.1 a x, ih h.2]

theorem matchAlt_nil {pat : List Alt} (h : patOk pat = true) : matchAlt pat [] = none := by
  induction pat with
  | nil => simp [matchAlt]
  | cons alt rest ih =>
    simp only [patOk, List.all_cons, Bool.and_eq_true] at h
    simp only [matchAlt]
    have h1 : matchOne alt [] = none := by
      cases alt with
      | lit l =>
        have : l ≠ [] := by
          have := h.1
          simp only [altOk, Bool.and_eq_true] at this
          simpa [List.isEmpty_iff] using this.1
        cases l with
        | nil => exact absurd rfl this
        | cons c cs => simp [matchOne, prefixOf]
      | pair p q =>
        have : p ≠ [] := by
          have := h.1
          simp only [altOk, Bool.and_eq_true] at this
          simpa [List.isEmpty_iff] using this.1.1
        cases p with
        | nil => exact absurd rfl this
        | cons c cs => simp [matchOne, prefixOf]
    rw [h1, ih h.2]

theorem scanAux_cons_match (pat : List Alt) (repl : List Char) (c : Char) (rest : List Char)
    {n : Nat} (h : matchAlt pat (c :: rest) = some (n + 1)) :
    scanAux pat repl (c :: rest) 0
      = ((c :: rest.take n) :: (scanAux pat repl rest n).1, repl ++ (scanAux pat repl rest n).2) := by
  simp only [scanAux, h]

theorem scanAux_cons_nomatch (pat : List Alt) (repl : List Char) (c : Char) (rest : List Char)
    (h : matchAlt pat (c :: rest) = none) :
    scanAux pat repl (c :: rest) 0
      = ((scanAux pat repl rest 0).1, c :: (scanAux pat repl rest 0).2) := by
  simp only [scanAux, h]

theorem scanAux_cons_zeromatch (pat : List Alt) (repl : List Char) (c : Char) (rest : List Char)
    (h : matchAlt pat (c :: rest) = some 0) :
    scanAux pat repl (c :: rest) 0
      = ((scanAux pat repl rest 0).1, c :: (scanAux pat repl rest 0).2) := by
  simp only [scanAux, h]

theorem scanAux_skip (pat : List Alt) (repl : List Char) :
    ∀ (s : List Char) (k : Nat), scanAux pat repl s k = scanAux pat repl (s.drop k) 0 := by
  intro s
  induction s with
  | nil => intro k; simp [scanAux]
  | cons c rest ih =>
    intro k
    cases k with
    | zero => simp
    | succ k2 => simpa [scanAux] using ih k2

theorem scanOut_split {pat : List Alt} (repl : List Char) (hp : patOk pat = true) :
    ∀ (N : Nat) (a : List Char), a.length ≤ N → ∀ b : List Char,
      (scanStep pat repl (a ++ '\n' :: b)).2
        = (scanStep pat repl a).2 ++ '\n' :: (scanStep pat repl b).2 := by
  intro N
  induction N with
  | zero =>
    intro a ha b
    have : a = [] := by
      cases a with
      | nil => rfl
      | cons c a2 => simp at ha
    subst this
    have hnone : matchAlt pat ([] ++ '\n' :: b) = none := by
      rw [matchAlt_split hp [] b]
      exact matchAlt_nil hp
    simp only [List.nil_append] at hnone
    simp [scanStep, scanAux, hnone]
  | succ N ih =>
    intro a ha b
    cases a with
    | nil =>
      have hnone : matchAlt pat ([] ++ '\n' :: b) = none := by
        rw [matchAlt_split hp [] b]
        exact matchAlt_nil hp
      simp only [List.nil_append] at hnone
      simp [scanStep, scanAux, hnone]
    | cons c a2 =>
      have hsplit : matchAlt pat (c :: (a2 ++ '\n' :: b)) = matchAlt pat (c :: a2) := by
        simpa using matchAlt_split hp (c :: a2) b
      cases hm : matchAlt pat (c :: a2) with
      | none =>
        have hm2 : matchAlt pat (c :: (a2 ++ '\n' :: b)) = none := hsplit.trans hm
        simp only [scanStep, List.cons_append]
        rw [scanAux_cons_nomatch pat repl c (a2 ++ '\n' :: b) hm2,
          scanAux_cons_nomatch pat repl c a2 hm]
        have := ih a2 (by simpa using Nat.le_of_succ_le_succ ha) b
        simp only [scanStep] at this
        simp [this]
      | some m =>
        obtain ⟨n, rfl⟩ : ∃ n, m = n + 1 := by
          have := matchAlt_pos hp hm
          exact ⟨m - 1, by omega⟩
        have hle : n + 1 ≤ (c :: a2).length := matchAlt_le hp hm
        have hna2 : n ≤ a2.length := by simpa using hle
        have hm2 : matchAlt pat (c :: (a2 ++ '\n' :: b)) = some (n + 1) := hsplit.trans hm
        simp only [scanStep, List.cons_append]
        rw [scanAux_cons_match pat repl c (a2 ++ '\n' :: b) hm2,
          scanAux_cons_match pat repl c a2 hm]
        rw [scanAux_skip pat repl (a2 ++ '\n' :: b) n, dropSplit ('\n' :: b) hna2,
          scanAux_skip pat repl a2 n]
        have := ih (a2.drop n) (by
          simp only [List.length_drop]
          simp only [List.length_cons] at ha
          omega) b
        simp only [scanStep] at this
        simp [this]

theorem scan_noMatch_id (pat : List Alt) (repl : List Char) :
    ∀ s : List Char, (scanStep pat repl s).1 = [] → (scanStep pat repl s).2 = s := by
  intro s
  induction s with
  | nil => intro _; rfl
  | cons c rest ih =>
    intro h1
    cases hm : matchAlt pat (c :: rest) with
    | none =>
      simp only [scanStep] at h1 ⊢
      rw [scanAux_cons_nomatch pat repl c rest hm] at h1 ⊢
      have ih2 : (scanAux pat repl rest 0).2 = rest := ih h1
      rw [ih2]
    | some m =>
      cases m with
      | zero =>
        simp only [scanStep] at h1 ⊢
        rw [scanAux_cons_zeromatch pat repl c rest hm] at h1 ⊢
        have ih2 : (scanAux pat repl rest 0).2 = rest := ih h1
        rw [ih2]
      | succ n =>
        simp only [scanStep] at h1
        rw [scanAux_cons_match pat repl c rest hm] at h1
        simp at h1

/- Check-level lemmas. -/

theorem checkFold_nil :
    ∀ (rs : List SafetyRule) (cur : List Char) (issues : List SafetyIssue),
      (rs.foldl applyRule (cur, issues)).2 = [] →
      issues = [] ∧ (rs.foldl applyRule (cur, issues)).1 = cur := by
  intro rs
  induction rs with
  | nil =>
    intro cur issues h
    exact ⟨h, rfl⟩
  | cons r rs ih =>
    intro cur issues h
    simp only [List.foldl_cons, applyRule] at h ⊢
    obtain ⟨hi, hfst⟩ := ih _ _ h
    have happ := List.append_eq_nil.mp hi
    have hms : (scanStep r.pattern r.replacement cur).1 = [] :=
      List.map_eq_nil_iff.mp happ.2
    have hcond : (scanStep r.pattern r.replacement cur).1.isEmpty = true := by
      simp [hms]
    refine ⟨happ.1, ?_⟩
    rw [hfst, if_pos hcond]

theorem check_issues_nil {t : List Char} (h : (check t).issues = []) :
    (check t).modified_content = t := by
  have h2 : (safetyRules.foldl applyRule (t, [])).2 = [] := by
    simpa [check] using h
  have h3 := (checkFold_nil safetyRules t [] h2).2
  simpa [check] using h3

theorem safetyRules_ok : ∀ r ∈ safetyRules, patOk r.pattern = true := by decide

theorem fold_keeps_line (H : List Char) :
    ∀ rs : List SafetyRule,
      (∀ r ∈ rs, patOk r.pattern = true) →
      (∀ r ∈ rs, (scanStep r.pattern r.replacement H).2 = H) →
      ∀ (x y : List Char) (issues : List SafetyIssue),
        ∃ x2 y2, (rs.foldl applyRule (x ++ '\n' :: (H ++ '\n' :: y), issues)).1
          = x2 ++ '\n' :: (H ++ '\n' :: y2) := by
  intro rs
  induction rs with
  | nil =>
    intro _ _ x y issues
    exact ⟨x, y, rfl⟩
  | cons r rs ih =>
    intro hp hH x y issues
    have hpr : patOk r.pattern = true := hp r (by simp)
    have hHr : (scanStep r.pattern r.replacement H).2 = H := hH r (by simp)
    have hp2 : ∀ q ∈ rs, patOk q.pattern = true := fun q hq => hp q (by simp [hq])
    have hH2 : ∀ q ∈ rs, (scanStep q.pattern q.replacement H).2 = H := fun q hq =>
      hH q (by simp [hq])
    simp only [List.foldl_cons, applyRule]
    by_cases hcond :
        (scanStep r.pattern r.replacement (x ++ '\n' :: (H ++ '\n' :: y))).1.isEmpty = true
    · rw [if_pos hcond]
      exact ih hp2 hH2 x y _
    · rw [if_neg hcond]
      have hsplit1 := scanOut_split r.replacement hpr x.length x (Nat.le_refl _)
        (H ++ '\n' :: y)
      have hsplit2 := scanOut_split r.replacement hpr H.length H (Nat.le_refl _) y
      rw [hsplit2, hHr] at hsplit1
      rw [hsplit1]
      exact ih hp2 hH2 _ _ _

theorem heading_in_final (H facts legal cites risk : List Char)
    (hH : ∀ r ∈ safetyRules, (scanStep r.pattern r.replacement H).2 = H)
    (hshape : ∃ x y, buildReport facts (legal ++ citeHeader ++ cites) processPath risk
      = x ++ '\n' :: (H ++ '\n' :: y)) :
    containsSeg H (finalReviewText facts legal cites risk) = true := by
  obtain ⟨x, y, hx⟩ := hshape
  have hmod : ∃ x2 y2,
      (check (buildReport facts (legal ++ citeHeader ++ cites) processPath risk)).modified_content
        = x2 ++ '\n' :: (H ++ '\n' :: y2) := by
    obtain ⟨x2, y2, h2⟩ := fold_keeps_line H safetyRules safetyRules_ok hH x y []
    refine ⟨x2, y2, ?_⟩
    simp only [check]
    rw [hx]
    exact h2
  obtain ⟨x2, y2, hmc⟩ := hmod
  have hseg : containsSeg H (x2 ++ '\n' :: (H ++ '\n' :: y2)) = true := by
    have := containsSeg_mid H (x2 ++ ['\n']) ('\n' :: y2)
    simpa [List.append_assoc] using this
  simp only [finalReviewText]
  split
  · rw [hmc]
    exact containsSeg_prepend _ hseg
  · rw [hmc]
    exact hseg

/- Decompositions of the report template pieces around each heading. -/

theorem tplA_decomp : tplA =
    str "【先说结论】\n从您目前提供的信息看，这类争议通常可以先走劳动仲裁路径；建议尽快把证据按时间线整理好，再按步骤推进。\n"
      ++ '\n' :: (str "【事实摘要】" ++ '\n' :: str "我先把您提供的信息整理如下：\n") := by decide

theorem tplB_decomp : tplB = ['\n'] ++ '\n' :: (str "【法律分析】" ++ '\n' :: []) := by decide

theorem tplC_decomp : tplC =
    ['\n'] ++ '\n' :: (str "【办事路径】" ++ '\n' :: str "建议按“先准备、再提交、再跟进”的顺序推进：\n") := by
  decide

theorem tplD_decomp : tplD = ['\n'] ++ '\n' :: (str "【风险提示】" ++ '\n' :: []) := by decide

theorem tplE_decomp : tplE = ['\n'] ++ ['\n'] := by decide

theorem citeHeader_decomp : citeHeader = ['\n'] ++ '\n' :: (str "【引用】" ++ '\n' :: []) := by
  decide

theorem disclaimer_decomp : disclaimer = str "【免责声明】" ++ '\n' ::
    str "1. 本报告由AI生成，仅供参考，不构成法律意见或律师建议\n2. 案件具体情况可能影响法律适用，建议咨询执业律师\n3. 法规可能存在时效性，请以最新颁布版本为准\n4. 本报告不保证准确性、完整性或适用性" := by
  decide

theorem shapeFacts (f l c r : List Char) :
    buildReport f (l ++ citeHeader ++ c) processPath r
      = str "【先说结论】\n从您目前提供的信息看，这类争议通常可以先走劳动仲裁路径；建议尽快把证据按时间线整理好，再按步骤推进。\n"
        ++ '\n' :: (str "【事实摘要】" ++ '\n' ::
          (str "我先把您提供的信息整理如下：\n" ++ f ++ tplB ++ (l ++ citeHeader ++ c) ++ tplC
            ++ processPath ++ tplD ++ r ++ tplE ++ disclaimer)) := by
  simp [buildReport, tplA_decomp, List.append_assoc]

theorem shapeLegal (f l c r : List Char) :
    buildReport f (l ++ citeHeader ++ c) processPath r
      = (tplA ++ f ++ ['\n']) ++ '\n' :: (str "【法律分析】" ++ '\n' ::
          ((l ++ citeHeader ++ c) ++ tplC ++ processPath ++ tplD ++ r ++ tplE ++ disclaimer)) := by
  simp [buildReport, tplB_decomp, List.append_assoc]

theorem shapeCite (f l c r : List Char) :
    buildReport f (l ++ citeHeader ++ c) processPath r
      = (tplA ++ f ++ tplB ++ l ++ ['\n']) ++ '\n' :: (str "【引用】" ++ '\n' ::
          (c ++ tplC ++ processPath ++ tplD ++ r ++ tplE ++ disclaimer)) := by
  simp [buildReport, citeHeader_decomp, List.append_assoc]

theorem shapeProcess (f l c r : List Char) :
    buildReport f (l ++ citeHeader ++ c) processPath r
      = (tplA ++ f ++ tplB ++ (l ++ citeHeader ++ c) ++ ['\n']) ++ '\n' ::
          (str "【办事路径】" ++ '\n' ::
            (str "建议按“先准备、再提交、再跟进”的顺序推进：\n" ++ processPath ++ tplD ++ r ++ tplE
              ++ disclaimer)) := by
  simp [buildReport, tplC_decomp, List.append_assoc]

theorem shapeRisk (f l c r : List Char) :
    buildReport f (l ++ citeHeader ++ c) processPath r
      = (tplA ++ f ++ tplB ++ (l ++ citeHeader ++ c) ++ tplC ++ processPath ++ ['\n']) ++ '\n' ::
          (str "【风险提示】" ++ '\n' :: (r ++ tplE ++ disclaimer)) := by
  simp [buildReport, tplD_decomp, List.append_assoc]

theorem shapeDisclaimer (f l c r : List Char) :
    buildReport f (l ++ citeHeader ++ c) processPath r
      = (tplA ++ f ++ tplB ++ (l ++ citeHeader ++ c) ++ tplC ++ processPath ++ tplD ++ r
          ++ ['\n']) ++ '\n' :: (str "【免责声明】" ++ '\n' ::
            str "1. 本报告由AI生成，仅供参考，不构成法律意见或律师建议\n2. 案件具体情况可能影响法律适用，建议咨询执业律师\n3. 法规可能存在时效性，请以最新颁布版本为准\n4. 本报告不保证准确性、完整性或适用性") := by
  simp [buildReport, tplE_decomp, disclaimer_decomp, List.append_assoc]

/-- C1: every review-phase report text — the build_report template with the
citation block spliced under a 【引用】 heading, rewritten by the safety
check, with the 【安全审查】 header prepended when critical issues were
found — contains the six literal headings 【事实摘要】, 【法律分析】,
【办事路径】, 【风险提示】, 【免责声明】 and 【引用】, for every value of the
placeholder texts. -/
theorem review_report_contains_required_headings (facts legal cites risk : List Char) :
    containsSeg (str "【事实摘要】") (finalReviewText facts legal cites risk) = true ∧
    containsSeg (str "【法律分析】") (finalReviewText facts legal cites risk) = true ∧
    containsSeg (str "【办事路径】") (finalReviewText facts legal cites risk) = true ∧
    containsSeg (str "【风险提示】") (finalReviewText facts legal cites risk) = true ∧
    containsSeg (str "【免责声明】") (finalReviewText facts legal cites risk) = true ∧
    containsSeg (str "【引用】") (finalReviewText facts legal cites risk) = true := by
  refine ⟨?_, ?_, ?_, ?_, ?_, ?_⟩
  · exact heading_in_final _ facts legal cites risk (by decide)
      ⟨_, _, shapeFacts facts legal cites risk⟩
  · exact heading_in_final _ facts legal cites risk (by decide)
      ⟨_, _, shapeLegal facts legal cites risk⟩
  · exact heading_in_final _ facts legal cites risk (by decide)
      ⟨_, _, shapeProcess facts legal cites risk⟩
  · exact heading_in_final _ facts legal cites risk (by decide)
      ⟨_, _, shapeRisk facts legal cites risk⟩
  · exact heading_in_final _ facts legal cites risk (by decide)
      ⟨_, _, shapeDisclaimer facts legal cites risk⟩
  · exact heading_in_final _ facts legal cites risk (by decide)
      ⟨_, _, shapeCite facts legal cites risk⟩

/-- C2 counterexample: the safety check is not idempotent. On the input
肯定赢胜诉 the first pass rewrites 肯定赢 to 无法保证案件结果, producing
无法保证案件结果胜诉, in which the guarantee_win rule matches again
(保证…胜诉); the second pass therefore reports a fresh issue and changes
the text once more. -/
theorem check_not_idempotent_counterexample :
    ¬ ((check ((check (str "肯定赢胜诉")).modified_content)).issues = [] ∧
       (check ((check (str "肯定赢胜诉")).modified_content)).modified_content
         = (check (str "肯定赢胜诉")).modified_content) := by decide

/-- C2 (amended): when the first application of the safety check reports no
issues, its modified_content equals the input and a second application
returns the same result (empty issues, unchanged content); in general the
rewritten output may contain fresh rule matches, so full idempotence fails. -/
theorem check_fixed_point_on_clean (t : List Char) (h : (check t).issues = []) :
    (check t).modified_content = t ∧ check ((check t).modified_content) = check t := by
  have hm := check_issues_nil h
  exact ⟨hm, by rw [hm]⟩

theorem check_fixed_point_on_clean_witness :
    (check (str "建议咨询律师并核实最新法规")).issues = [] ∧
    ((check (str "建议咨询律师并核实最新法规")).modified_content = str "建议咨询律师并核实最新法规" ∧
      check ((check (str "建议咨询律师并核实最新法规")).modified_content)
        = check (str "建议咨询律师并核实最新法规")) :=
  ⟨by decide, check_fixed_point_on_clean (str "建议咨询律师并核实最新法规") (by decide)⟩

/-- C3 counterexample: with the cancel flag becoming visible at step index
15 — after the worker's final cancellation check (the guard at index 14)
but before the completed emit at index 16 — the run still emits completed
at an index after the cancellation, and no cancelled event is emitted, so
the claim as stated fails. Index 15 is before worker exit (index 17), so
cancel_agent_task still finds the task entry and returns successfully. -/
theorem cancel_after_final_guard_counterexample :
    15 ≤ 17 ∧
    ¬ ((∀ p ∈ workerTrace 15, p.2 = "completed" → p.1 < 15) ∧
       (∃ p ∈ workerTrace 15, p.2 = "cancelled")) := by decide

/-- C3 (amended): if the cancel flag set by cancel_agent_task becomes
visible no later than the worker's final cancellation check (the guard
just before the final persist), then the worker emits no completed event
at all and a cancelled event is emitted on worker exit. A cancellation
that lands between that final check and the completed emit does not
suppress the completed event. -/
theorem cancel_before_final_guard (c : Nat) (hc : c ≤ 14) :
    (∀ p ∈ workerTrace c, p.2 ≠ "completed") ∧
    (∃ p ∈ workerTrace c, p.2 = "cancelled") := by
  interval_cases c <;> decide

theorem cancel_before_final_guard_witness :
    0 ≤ 14 ∧ ((∀ p ∈ workerTrace 0, p.2 ≠ "completed") ∧
      (∃ p ∈ workerTrace 0, p.2 = "cancelled")) :=
  ⟨by decide, cancel_before_final_guard 0 (by decide)⟩

/- Worker-turn lemmas for the intake settings. -/

theorem run_done {maxIter qcount : Nat} {content : String} {s : IntakeStore} {iter : Nat}
    (h : s.done = some "1") : (runWithIteration maxIter qcount content s iter).1 = s := by
  unfold runWithIteration
  by_cases h1 : iter > maxIter
  · rw [dif_pos h1]
  · rw [dif_neg h1]
    have hd : (intakeState s).done = true := by simp [intakeState, h]
    rw [if_pos hd]

theorem run_writes (maxIter qcount : Nat) (hq : qcount ≤ usizeMax) (content : String)
    (s : IntakeStore) (iter : Nat) :
    parsedIdx s ≤ parsedIdx (runWithIteration maxIter qcount content s iter).1 ∧
    ((runWithIteration maxIter qcount content s iter).1.done = s.done ∨
      (runWithIteration maxIter qcount content s iter).1.done = some "1") := by
  unfold runWithIteration
  by_cases h1 : iter > maxIter
  · rw [dif_pos h1]
    exact ⟨Nat.le_refl _, Or.inl rfl⟩
  rw [dif_neg h1]
  by_cases h2 : (intakeState s).done = true
  · rw [if_pos h2]
    exact ⟨Nat.le_refl _, Or.inl rfl⟩
  rw [if_neg h2]
  have hpi : parsedIdx s = (intakeState s).currentIndex := rfl
  by_cases h3 : (intakeState s).currentIndex = 0
  · rw [if_pos h3]
    constructor
    · have hone : parseUsize "1" = some 1 := by decide
      have hr : parsedIdx { s with idx := some "1" } = 1 := by
        simp [parsedIdx, hone]
      rw [hr, hpi, h3]
      omega
    · exact Or.inl rfl
  rw [if_neg h3]
  by_cases h4 : (intakeState s).currentIndex < qcount
  · rw [if_pos h4]
    constructor
    · have hro : parseUsize (String.mk (natDigits ((intakeState s).currentIndex + 1)))
          = some ((intakeState s).currentIndex + 1) :=
        parseUsize_natDigits (by omega)
      have hr : parsedIdx { s with
          answers := ((intakeState s).currentIndex - 1, content) :: s.answers,
          idx := some (String.mk (natDigits ((intakeState s).currentIndex + 1))) }
          = (intakeState s).currentIndex + 1 := by
        simp [parsedIdx, hro]
      rw [hr, hpi]
      omega
    · exact Or.inl rfl
  · rw [if_neg h4]
    have hdone2 := @run_done maxIter qcount content
      { s with
        answers := ((intakeState s).currentIndex - 1, content) :: s.answers,
        done := some "1" } (iter + 1) rfl
    rw [hdone2]
    exact ⟨Nat.le_refl _, Or.inr rfl⟩

/-- C4: across any sequence of worker turns on a session, the intake index
setting, read back through the usize parser with default 0, never
decreases; the worker writes it only as 1 (when the current index is 0)
or as current_index+1; and once the done setting holds "1", it still
holds "1" after any further turns — the worker writes done only as "1".
qcount is the scenario question-catalog length, bounded by usize. -/
theorem intake_idx_monotone_done_stable (maxIter qcount : Nat) (hq : qcount ≤ usizeMax)
    (contents : List String) (s : IntakeStore) :
    parsedIdx s ≤ parsedIdx (runTurns maxIter qcount contents s) ∧
    (s.done = some "1" → (runTurns maxIter qcount contents s).done = some "1") := by
  induction contents generalizing s with
  | nil => exact ⟨Nat.le_refl _, fun h => h⟩
  | cons c cs ih =>
    simp only [runTurns, List.foldl_cons] at ih ⊢
    have hstep := run_writes maxIter qcount hq c s 1
    have ihs := ih ((runWithIteration maxIter qcount c s 1).1)
    constructor
    · exact Nat.le_trans hstep.1 ihs.1
    · intro h
      apply ihs.2
      rcases hstep.2 with h2 | h2
      · rw [h2, h]
      · exact h2

theorem intake_idx_monotone_done_stable_witness :
    6 ≤ usizeMax ∧
    (parsedIdx ⟨some "3", none, []⟩
        ≤ parsedIdx (runTurns 12 6 ["答一", "答二"] ⟨some "3", none, []⟩) ∧
      ((⟨some "3", none, []⟩ : IntakeStore).done = some "1" →
        (runTurns 12 6 ["答一", "答二"] ⟨some "3", none, []⟩).done = some "1")) :=
  ⟨by decide, intake_idx_monotone_done_stable 12 6 (by decide) ["答一", "答二"] ⟨some "3", none, []⟩⟩

/-- C5: every call of run_with_iteration with iteration > max_iterations
fails immediately with Unknown "max_iterations exceeded: N" where N is
the configured max_iterations, leaving the store untouched; the recursive
re-entry from intake completion uses iteration+1, so the recursion is
bounded (the Lean model is total by well-founded recursion on
max_iterations + 1 - iteration). -/
theorem run_with_iteration_exceeds_max (maxIter qcount : Nat) (content : String)
    (s : IntakeStore) (iter : Nat) (h : iter > maxIter) :
    runWithIteration maxIter qcount content s iter
      = (s, .error (.unknown ("max_iterations exceeded: " ++ String.mk (natDigits maxIter)))) := by
  unfold runWithIteration
  rw [dif_pos h]

theorem run_with_iteration_exceeds_max_witness :
    5 > 3 ∧ runWithIteration 3 6 "x" ⟨none, none, []⟩ 5
      = (⟨none, none, []⟩,
         .error (.unknown ("max_iterations exceeded: " ++ String.mk (natDigits 3)))) :=
  ⟨by decide, run_with_iteration_exceeds_max 3 6 "x" ⟨none, none, []⟩ 5 (by decide)⟩

/-- C10: intake_state treats an absent or unparseable intake idx setting as
index 0 and treats the session as not done unless the done setting is
exactly "1"; a worker turn on such a store silently restarts intake: it
asks question 0, writes idx = "1", and reports success rather than an
error. -/
theorem intake_state_lenient_defaults (maxIter qcount : Nat) (content : String)
    (s : IntakeStore) (hidx : s.idx.bind parseUsize = none) (hdone : s.done ≠ some "1")
    (hmax : 1 ≤ maxIter) :
    (intakeState s).currentIndex = 0 ∧ (intakeState s).done = false ∧
    runWithIteration maxIter qcount content s 1
      = ({ s with idx := some "1" }, .ok (.askedFirst 0)) := by
  have hci : (intakeState s).currentIndex = 0 := by simp [intakeState, hidx]
  have hd : (intakeState s).done = false := by
    simp only [intakeState]
    exact beq_eq_false_iff_ne.mpr hdone
  refine ⟨hci, hd, ?_⟩
  unfold runWithIteration
  rw [dif_neg (by omega : ¬ 1 > maxIter), if_neg (by simp [hd]), if_pos hci]

theorem intake_state_lenient_defaults_witness :
    (⟨some "abc", some "yes", []⟩ : IntakeStore).idx.bind parseUsize = none ∧
    (⟨some "abc", some "yes", []⟩ : IntakeStore).done ≠ some "1" ∧ 1 ≤ 12 ∧
    ((intakeState ⟨some "abc", some "yes", []⟩).currentIndex = 0 ∧
      (intakeState ⟨some "abc", some "yes", []⟩).done = false ∧
      runWithIteration 12 6 "你好" ⟨some "abc", some "yes", []⟩ 1
        = (⟨some "1", some "yes", []⟩, .ok (.askedFirst 0))) :=
  ⟨by decide, by decide, by decide,
    intake_state_lenient_defaults 12 6 "你好" ⟨some "abc", some "yes", []⟩
      (by decide) (by decide) (by decide)⟩

/-- C6: creating a message against a session id with no row in the
sessions table returns NotFound "session {id}" and leaves the store
completely unchanged: no message row is inserted and no session's
updated_at is modified. -/
theorem create_message_unknown_session (db : Db) (newId : String) (now : Int)
    (sid role content : String) (phase tool_calls : Option String)
    (h : ∀ s ∈ db.sessions, s.id ≠ sid) :
    createMessage db newId now sid role content phase tool_calls
      = (db, .error (.notFound ("session " ++ sid))) := by
  have hany : db.sessions.any (fun s => s.id == sid) = false := by
    rw [List.any_eq_false]
    intro s hs
    simpa using h s hs
  simp [createMessage, hany]

theorem create_message_unknown_session_witness :
    (∀ s ∈ (⟨[⟨"a", none, "labor", 5, 7, "active"⟩], []⟩ : Db).sessions, s.id ≠ "b") ∧
    createMessage ⟨[⟨"a", none, "labor", 5, 7, "active"⟩], []⟩ "m1" 9 "b" "user" "hi" none none
      = (⟨[⟨"a", none, "labor", 5, 7, "active"⟩], []⟩, .error (.notFound ("session " ++ "b"))) :=
  ⟨by decide,
    create_message_unknown_session ⟨[⟨"a", none, "labor", 5, 7, "active"⟩], []⟩ "m1" 9 "b"
      "user" "hi" none none (by decide)⟩

/- generate_report: reverse search equals last-of-filter. -/

theorem find_append (p : MessageR → Bool) :
    ∀ xs ys : List MessageR, (xs ++ ys).find? p
      = match xs.find? p with
        | some a => some a
        | none => ys.find? p := by
  intro xs ys
  induction xs with
  | nil => simp
  | cons x xs ih =>
    by_cases hx : p x = true
    · simp [List.find?_cons_of_pos, hx]
    · have hx2 : p x = false := by simpa using hx
      simp [List.find?_cons_of_neg, hx2, ih]

theorem lastOpt_cons_ne_none (b : MessageR) (t : List MessageR) : lastOpt (b :: t) ≠ none := by
  induction t generalizing b with
  | nil => simp [lastOpt]
  | cons c t ih => simpa [lastOpt] using ih c

theorem lastOpt_cons (a : MessageR) (t : List MessageR) :
    lastOpt (a :: t) = match lastOpt t with
      | some x => some x
      | none => some a := by
  cases t with
  | nil => simp [lastOpt]
  | cons b t2 =>
    cases hl : lastOpt (b :: t2) with
    | none => exact absurd hl (lastOpt_cons_ne_none b t2)
    | some x => simp [lastOpt, hl]

theorem rev_find_filter (p : MessageR → Bool) :
    ∀ l : List MessageR, l.reverse.find? p = lastOpt (l.filter p) := by
  intro l
  induction l with
  | nil => simp [lastOpt]
  | cons a l ih =>
    rw [List.reverse_cons, find_append p l.reverse [a], ih, List.filter_cons]
    by_cases ha : p a = true
    · rw [if_pos ha, lastOpt_cons]
      cases lastOpt (l.filter p) <;> simp [List.find?, ha]
    · have ha2 : p a = false := by simpa using ha
      rw [if_neg (by simp [ha2])]
      cases lastOpt (l.filter p) <;> simp [List.find?, ha2]

/-- C7: generate_report returns the content of the latest (last in
created_at order) assistant message with phase "review"; failing that,
the content of the most recent assistant message whose body contains both
【事实摘要】 and 【免责声明】; failing that, NotFound. The code's
reverse-order search agrees with this specification reading for every
message list. -/
theorem generate_report_matches_spec (session_id : String) (msgs : List MessageR) :
    generateReport session_id msgs = generateReportSpec session_id msgs := by
  simp only [generateReport, generateReportSpec,
    rev_find_filter isReviewMsg msgs, rev_find_filter isFallbackMsg msgs]

/-- C8: for every JSON arguments value, the suggest_escalation tool
succeeds, returning need_escalation together with the fixed high-risk or
low-risk message; need_escalation is true exactly when the content field
(empty when absent or not a string) contains one of the six high-risk
keywords as a substring. -/
theorem suggest_escalation_spec (args : Json) :
    suggestEscalationRun args
      = .ok (.obj
          [("need_escalation", .bool (highRiskKeywords.any
              (fun kw => containsSeg (str kw) (str (escalationContent args))))),
           ("message", .jstr (if highRiskKeywords.any
                (fun kw => containsSeg (str kw) (str (escalationContent args)))
              then escalationHigh else escalationLow))]) ∧
    (highRiskKeywords.any (fun kw => containsSeg (str kw) (str (escalationContent args))) = true
      ↔ ∃ kw ∈ highRiskKeywords, ∃ u v, str (escalationContent args) = u ++ str kw ++ v) := by
  constructor
  · rfl
  · simp only [List.any_eq_true, containsSeg_iff]

/-- C9: Core::new rejects a configuration with max_iterations = 0 with the
Config error "max_iterations must be > 0" before performing any side
effect: no knowledge-base or database directory is created and no
database is opened, for every filesystem situation. -/
theorem core_new_zero_max_iterations (cfg : CoreConfigM) (kbExists : Bool)
    (dbParent : Option String) (h : cfg.max_iterations = 0) :
    coreNew cfg kbExists dbParent = ([], .error (.config "max_iterations must be > 0")) := by
  simp [coreNew, h]

theorem core_new_zero_max_iterations_witness :
    (⟨"kb", "data/core.db", 0⟩ : CoreConfigM).max_iterations = 0 ∧
    coreNew ⟨"kb", "data/core.db", 0⟩ true (some "data")
      = ([], .error (.config "max_iterations must be > 0")) :=
  ⟨rfl, core_new_zero_max_iterations ⟨"kb", "data/core.db", 0⟩ true (some "data") rfl⟩

end Alawyer
